import Mathlib

/-!
Verification development for the email extraction core of the
email-hunter-api repository (src/email_hunter.py).

The source has two functions:

  find_emails(text): matches the regex
      \b[A-Za-z0-9._%+-]+@[A-Za-z0-9.-]+\.[A-Z|a-z]{2,}\b
  over the text with re.findall, then removes duplicates case-insensitively
  while preserving first-seen order;

  hunt_emails(text): packages find_emails(text) together with its length and
  the length of the input text.

Strings are modelled as List Char.  The regex engine is modelled concretely
for this single pattern, following the semantics of the CPython re module:
left-to-right scan, at each position a word-boundary test, then a greedy
match of the local part, the literal at sign, a greedy match of the domain
run with backtracking over the position of the literal dot, and a greedy
match of the tld run with backtracking against the final word boundary.
The word-character test is modelled over ASCII (letters, digits,
underscore); the character classes of the pattern are ASCII-only, so every
produced match is an ASCII string, and on ASCII inputs the model agrees
with the Unicode-aware default of the re module.
-/

/-- Word character for the boundary assertion of the regex: letter, digit
or underscore (ASCII). -/
def isWordChar (c : Char) : Bool :=
  c.isAlphanum || c = '_'

/-- Word test extended to an optional character; positions outside the
string count as non-word. -/
def isWordOpt : Option Char → Bool
  | none => false
  | some c => isWordChar c

/-- The boundary assertion between two adjacent positions holds when
exactly one side is a word character. -/
def boundaryB (a b : Option Char) : Bool :=
  isWordOpt a != isWordOpt b

/-- Character class of the local part: [A-Za-z0-9._%+-]. -/
def isLocalChar (c : Char) : Bool :=
  c.isAlpha || c.isDigit || c = '.' || c = '_' || c = '%' || c = '+' || c = '-'

/-- Character class of the domain run: [A-Za-z0-9.-]. -/
def isDomainChar (c : Char) : Bool :=
  c.isAlpha || c.isDigit || c = '.' || c = '-'

/-- Character class of the tld run: [A-Z|a-z].  Note that this class,
taken literally from the source pattern, contains the pipe character. -/
def isTldChar (c : Char) : Bool :=
  c.isAlpha || c = '|'

/-- Backtracking search for the tld quantifier.  The first argument is the
reversed greedy tld run still under consideration, the second the first
character beyond it.  Lengths are tried from the longest down to 2; a
length is accepted when the trailing word-boundary assertion holds. -/
def tldTake : List Char → Option Char → Option Nat
  | [], _ => none
  | c :: cs, next =>
    if !cs.isEmpty && boundaryB (some c) next then some (cs.length + 1)
    else tldTake cs (some c)

/-- Match of the suffix  \.[A-Z|a-z]{2,}\b  minus its leading dot: the
greedy tld run is computed, then lengths are tried longest-first.  Returns
the number of consumed characters. -/
def matchTld (s : List Char) : Option Nat :=
  let run := s.takeWhile isTldChar
  tldTake run.reverse ((s.drop run.length).head?)

/-- Backtracking search for the domain quantifier.  The first argument is
the reversed part of the greedy domain run currently consumed by the
quantifier, the second the rest of the input after it.  For each length,
longest first, the literal dot and then the tld suffix must match; on
failure one character is moved back from the quantifier to the rest. -/
def domSearch : List Char → List Char → Option Nat
  | [], _ => none
  | c :: cs, suf =>
    if suf.head? = some '.' then
      match matchTld suf.tail with
      | some t => some (cs.length + 1 + 1 + t)
      | none => domSearch cs (c :: suf)
    else domSearch cs (c :: suf)

/-- Attempt of the whole pattern at the current position.  prev is the
character immediately before the position, s the rest of the input.
Returns the length of the match.  The local-part quantifier needs no
backtracking: it is followed by the at sign, which is not in its class. -/
def matchAt (prev : Option Char) (s : List Char) : Option Nat :=
  if boundaryB prev s.head? then
    let loc := s.takeWhile isLocalChar
    if loc.isEmpty then none
    else
      let r := s.drop loc.length
      if r.head? = some '@' then
        let d := r.tail
        let drun := d.takeWhile isDomainChar
        match domSearch drun.reverse (d.drop drun.length) with
        | some m => some (loc.length + 1 + m)
        | none => none
      else none
  else none

/-- Left-to-right scan of re.findall: try the pattern at each position;
after a match continue right after it, otherwise advance one character.
The fuel argument is initialised with the length of the text; every step
consumes at least one character, so the fuel never runs out early. -/
def scanAux : Nat → Option Char → List Char → List (List Char)
  | 0, _, _ => []
  | _ + 1, _, [] => []
  | fuel + 1, prev, c :: cs =>
    match matchAt prev (c :: cs) with
    | some n =>
      (c :: cs).take n :: scanAux fuel ((c :: cs).take n).getLast? ((c :: cs).drop n)
    | none => scanAux fuel (some c) cs

/-- Model of  re.findall(email_pattern, text)  from find_emails. -/
def findall (text : List Char) : List (List Char) :=
  scanAux text.length none text

/-- Model of  email.lower()  on a matched string.  Matches consist of ASCII
characters only, where Char.toLower agrees with the python lower method. -/
def lowerStr (e : List Char) : List Char :=
  e.map Char.toLower

/-- The de-duplication loop of find_emails: seen is the set of lowercased
matches already kept, and a match is appended to the output exactly when
its lowercase form is not in seen. -/
def dedupEmails (seen : List (List Char)) : List (List Char) → List (List Char)
  | [] => []
  | e :: rest =>
    if lowerStr e ∈ seen then dedupEmails seen rest
    else e :: dedupEmails (lowerStr e :: seen) rest

/-- Model of find_emails: all regex matches, de-duplicated
case-insensitively, preserving first-seen order. -/
def find_emails (text : List Char) : List (List Char) :=
  dedupEmails [] (findall text)

/-- The dictionary returned by hunt_emails. -/
structure HuntResult where
  emails : List (List Char)
  count : Nat
  text_length : Nat
deriving DecidableEq, Repr

/-- Model of hunt_emails. -/
def hunt_emails (text : List Char) : HuntResult :=
  let emails := find_emails text
  { emails := emails, count := emails.length, text_length := text.length }

/-- Modelled from the spec (the de-duplication step as the specification
words it, for the refinement claim about the output order): keep, for each
distinct lowercased key, the first-occurring raw match, in first-occurrence
order; every later match with an already kept key is discarded. -/
def dedupFirst : List (List Char) → List (List Char)
  | [] => []
  | e :: rest =>
    e :: dedupFirst (rest.filter (fun x => decide (lowerStr x ≠ lowerStr e)))
termination_by l => l.length
decreasing_by
  simp only [List.length_cons]
  exact Nat.lt_succ_of_le (rest.length_filter_le _)

/-- Decomposition of a string as  local at domain dot tld, with the local
and domain runs nonempty and over their character classes, and the tld run
of length at least two over the class given by the first argument. -/
def EmailShape (tldClass : Char → Bool) (e : List Char) : Prop :=
  ∃ loc dom tld,
    e = loc ++ '@' :: (dom ++ '.' :: tld) ∧
    loc ≠ [] ∧ (∀ c ∈ loc, isLocalChar c = true) ∧
    dom ≠ [] ∧ (∀ c ∈ dom, isDomainChar c = true) ∧
    2 ≤ tld.length ∧ (∀ c ∈ tld, tldClass c = true)

/-- A well-delimited email: it decomposes as local at domain dot tld, its
first character is a word character, and its tld consists of letters only.
Such a string, surrounded by spaces or string ends, is re-matched whole by
the pattern. -/
def GoodEmail (e : List Char) : Prop :=
  ∃ a loc dom tld,
    e = a :: loc ++ '@' :: (dom ++ '.' :: tld) ∧
    isWordChar a = true ∧ (∀ c ∈ a :: loc, isLocalChar c = true) ∧
    dom ≠ [] ∧ (∀ c ∈ dom, isDomainChar c = true) ∧
    2 ≤ tld.length ∧ (∀ c ∈ tld, c.isAlpha = true)

/-- Joining a list of strings with a single space, the delimiter the
idempotence property of the specification uses. -/
def joinSpace : List (List Char) → List Char
  | [] => []
  | [e] => e
  | e :: rest => e ++ ' ' :: joinSpace rest

/-! ## List helper lemmas -/

lemma twLen (p : Char → Bool) : ∀ l : List Char, (l.takeWhile p).length ≤ l.length := by
  intro l
  induction l with
  | nil => simp
  | cons c cs ih =>
    rw [List.takeWhile_cons]
    by_cases h : p c = true
    · rw [if_pos h]
      simp only [List.length_cons]
      omega
    · rw [if_neg h]
      simp

lemma twDrop (p : Char → Bool) : ∀ l : List Char, l.drop (l.takeWhile p).length = l.dropWhile p := by
  intro l
  induction l with
  | nil => rfl
  | cons c cs ih =>
    rw [List.takeWhile_cons, List.dropWhile_cons]
    by_cases h : p c = true
    · rw [if_pos h, if_pos h]
      simp only [List.length_cons, List.drop_succ_cons]
      exact ih
    · rw [if_neg h, if_neg h]
      rfl

lemma twSplit (p : Char → Bool) (l : List Char) :
    l.takeWhile p ++ l.drop (l.takeWhile p).length = l := by
  rw [twDrop]
  exact List.takeWhile_append_dropWhile p l

lemma takeAppendLen (l₁ l₂ : List Char) (n : Nat) :
    (l₁ ++ l₂).take (l₁.length + n) = l₁ ++ l₂.take n := by
  rw [List.take_append_eq_append_take, List.take_of_length_le (by omega),
    Nat.add_sub_cancel_left]

lemma twAllSelf (p : Char → Bool) : ∀ l : List Char, (∀ x ∈ l, p x = true) →
    l.takeWhile p = l := by
  intro l
  induction l with
  | nil => intro _; rfl
  | cons c cs ih =>
    intro h
    rw [List.takeWhile_cons, if_pos (h c (by simp)), ih (fun x hx => h x (by simp [hx]))]

lemma twFrontier (p : Char → Bool) (xs ys : List Char)
    (hxs : ∀ x ∈ xs, p x = true) (hys : ∀ c, ys.head? = some c → p c = false) :
    (xs ++ ys).takeWhile p = xs := by
  induction xs with
  | nil =>
    simp only [List.nil_append]
    cases ys with
    | nil => rfl
    | cons c cs => rw [List.takeWhile_cons, if_neg (by simp [hys c rfl])]
  | cons x xs ih =>
    rw [List.cons_append, List.takeWhile_cons, if_pos (hxs x (by simp))]
    rw [ih (fun x hx => hxs x (by simp [hx]))]

/-! ## De-duplication lemmas -/

lemma dedupSub : ∀ (l : List (List Char)) (seen : List (List Char)) (e : List Char),
    e ∈ dedupEmails seen l → e ∈ l := by
  intro l
  induction l with
  | nil => intro seen e h; simp [dedupEmails] at h
  | cons x xs ih =>
    intro seen e h
    rw [dedupEmails] at h
    by_cases hx : lowerStr x ∈ seen
    · rw [if_pos hx] at h
      exact List.mem_cons_of_mem x (ih seen e h)
    · rw [if_neg hx] at h
      rcases List.mem_cons.mp h with h | h
      · exact h ▸ List.mem_cons_self x xs
      · exact List.mem_cons_of_mem x (ih _ e h)

lemma dedupNotSeen : ∀ (l : List (List Char)) (seen : List (List Char)) (e : List Char),
    e ∈ dedupEmails seen l → lowerStr e ∉ seen := by
  intro l
  induction l with
  | nil => intro seen e h; simp [dedupEmails] at h
  | cons x xs ih =>
    intro seen e h
    rw [dedupEmails] at h
    by_cases hx : lowerStr x ∈ seen
    · rw [if_pos hx] at h
      exact ih seen e h
    · rw [if_neg hx] at h
      rcases List.mem_cons.mp h with h | h
      · exact h ▸ hx
      · intro hmem
        exact ih _ e h (List.mem_cons_of_mem _ hmem)

lemma dedupPairwise : ∀ (l : List (List Char)) (seen : List (List Char)),
    List.Pairwise (fun a b => lowerStr a ≠ lowerStr b) (dedupEmails seen l) := by
  intro l
  induction l with
  | nil => intro seen; simp [dedupEmails]
  | cons x xs ih =>
    intro seen
    rw [dedupEmails]
    by_cases hx : lowerStr x ∈ seen
    · rw [if_pos hx]; exact ih seen
    · rw [if_neg hx]
      refine List.Pairwise.cons ?_ (ih _)
      intro b hb
      have := dedupNotSeen xs _ b hb
      intro heq
      apply this
      rw [← heq]
      exact List.mem_cons_self _ _

lemma dedupId : ∀ (l : List (List Char)) (seen : List (List Char)),
    List.Pairwise (fun a b => lowerStr a ≠ lowerStr b) l →
    (∀ e ∈ l, lowerStr e ∉ seen) → dedupEmails seen l = l := by
  intro l
  induction l with
  | nil => intro seen _ _; rfl
  | cons x xs ih =>
    intro seen hpw hseen
    rw [dedupEmails, if_neg (hseen x (List.mem_cons_self x xs))]
    rcases List.pairwise_cons.mp hpw with ⟨hhead, htail⟩
    rw [ih _ htail ?_]
    intro e he
    simp only [List.mem_cons, not_or]
    exact ⟨fun h => hhead e he h.symm, hseen e (List.mem_cons_of_mem x he)⟩

lemma dedupEqFirst : ∀ (n : Nat) (l : List (List Char)) (seen : List (List Char)),
    l.length ≤ n →
    dedupEmails seen l = dedupFirst (l.filter (fun x => decide (lowerStr x ∉ seen))) := by
  intro n
  induction n with
  | zero =>
    intro l seen h
    rw [List.length_eq_zero.mp (Nat.le_zero.mp h)]
    simp [dedupEmails, dedupFirst]
  | succ n ih =>
    intro l segment h
    cases l with
    | nil => simp [dedupEmails, dedupFirst]
    | cons x xs =>
      rw [dedupEmails, List.filter_cons]
      by_cases hx : lowerStr x ∈ segment
      · rw [if_pos hx, if_neg (by simp [hx])]
        exact ih xs segment (by simpa using Nat.le_of_succ_le_succ (by simpa using h))
      · rw [if_neg hx, if_pos (by simp [hx]), dedupFirst, List.filter_filter]
        have hcong : xs.filter (fun a =>
              decide (lowerStr a ≠ lowerStr x) && decide (lowerStr a ∉ segment)) =
            xs.filter (fun a => decide (lowerStr a ∉ lowerStr x :: segment)) := by
          apply List.filter_congr
          intro y _
          rw [← Bool.decide_and]
          apply decide_eq_decide.mpr
          simp only [List.mem_cons, not_or]
        rw [hcong, ih xs _ (by simpa using Nat.le_of_succ_le_succ (by simpa using h))]

/-! ## Claim theorems: result bookkeeping -/

/-- C1: for every input string, the count field of the result of
hunt_emails equals the length of the emails sequence of that result. -/
theorem c1_count_eq_length (t : List Char) :
    (hunt_emails t).count = (hunt_emails t).emails.length := rfl

/-- C2: for every input string, the sequence returned by find_emails
contains no two entries whose lowercased forms are equal. -/
theorem c2_unique_mod_case (t : List Char) :
    List.Pairwise (fun a b => lowerStr a ≠ lowerStr b) (find_emails t) :=
  dedupPairwise (findall t) []

/-- C8: for every input string, the text_length field of the result of
hunt_emails equals the length of the original input text. -/
theorem c8_text_length (t : List Char) :
    (hunt_emails t).text_length = t.length := rfl

/-- C3: for every input string, find_emails keeps, for each distinct
lowercased key, the first-occurring raw match with original casing, in
first-occurrence order, discarding later case-insensitive duplicates:
it equals the specification-level de-duplication dedupFirst applied to the
raw match sequence. -/
theorem c3_first_occurrence_order (t : List Char) :
    find_emails t = dedupFirst (findall t) := by
  rw [find_emails, dedupEqFirst (findall t).length (findall t) [] (Nat.le_refl _)]
  congr 1
  have : ∀ x : List Char, (decide (lowerStr x ∉ ([] : List (List Char)))) = true := by
    intro x; simp
  calc (findall t).filter (fun x => decide (lowerStr x ∉ ([] : List (List Char))))
      = (findall t).filter (fun _ => true) := List.filter_congr (fun x _ => this x)
    _ = findall t := List.filter_true (findall t)

/-! ## Shape of every produced match -/

lemma tldTakeBounds : ∀ (r : List Char) (next : Option Char) (t : Nat),
    tldTake r next = some t → 2 ≤ t ∧ t ≤ r.length := by
  intro r
  induction r with
  | nil => intro next t h; simp [tldTake] at h
  | cons c cs ih =>
    intro next t h
    rw [tldTake] at h
    by_cases hc : (!cs.isEmpty && boundaryB (some c) next) = true
    · rw [if_pos hc] at h
      cases h
      rcases (Bool.and_eq_true _ _).mp hc with ⟨h1, _⟩
      cases cs with
      | nil => simp at h1
      | cons d ds => simp only [List.length_cons]; omega
    · rw [if_neg hc] at h
      have := ih (some c) t h
      simp only [List.length_cons]
      omega

lemma matchTldSpec : ∀ (s : List Char) (t : Nat), matchTld s = some t →
    2 ≤ t ∧ t ≤ s.length ∧ ∀ c ∈ s.take t, isTldChar c = true := by
  intro s t h
  simp only [matchTld] at h
  have hb := tldTakeBounds _ _ _ h
  rw [List.length_reverse] at hb
  have hlen := twLen isTldChar s
  refine ⟨hb.1, by omega, ?_⟩
  have htake : s.take t = (s.takeWhile isTldChar).take t := by
    conv_lhs => rw [← twSplit isTldChar s]
    rw [List.take_append_eq_append_take, Nat.sub_eq_zero_of_le hb.2, List.take_zero,
      List.append_nil]
  intro c hc
  rw [htake] at hc
  exact List.mem_takeWhile_imp (List.take_subset _ _ hc)

lemma domSearchSpec : ∀ (pre suf : List Char) (m : Nat),
    (∀ c ∈ pre, isDomainChar c = true) → domSearch pre suf = some m →
    ∃ dom tld, (pre.reverse ++ suf).take m = dom ++ '.' :: tld ∧
      dom ≠ [] ∧ (∀ c ∈ dom, isDomainChar c = true) ∧
      2 ≤ tld.length ∧ (∀ c ∈ tld, isTldChar c = true) ∧
      m ≤ (pre.reverse ++ suf).length := by
  intro pre
  induction pre with
  | nil => intro suf m _ h; simp [domSearch] at h
  | cons c cs ih =>
    intro suf m hD h
    rw [domSearch] at h
    by_cases hsc : suf.head? = some '.'
    · rw [if_pos hsc] at h
      obtain ⟨rest, rfl⟩ : ∃ rest, suf = '.' :: rest := by
        cases suf with
        | nil => simp at hsc
        | cons a r =>
          simp only [List.head?_cons, Option.some.injEq] at hsc
          exact ⟨r, by rw [hsc]⟩
      simp only [List.tail_cons] at h
      rcases ht : matchTld rest with _ | t
      · simp only [ht] at h
        rw [List.reverse_cons, List.append_assoc, List.singleton_append]
        exact ih _ m (fun x hx => hD x (List.mem_cons_of_mem _ hx)) h
      · simp only [ht, Option.some.injEq] at h
        subst h
        have hts := matchTldSpec rest t ht
        refine ⟨(c :: cs).reverse, rest.take t, ?_, by simp, ?_, ?_, hts.2.2, ?_⟩
        · rw [show cs.length + 1 + 1 + t = (c :: cs).reverse.length + (1 + t) by
            simp only [List.length_reverse, List.length_cons]
            omega]
          rw [takeAppendLen, Nat.add_comm 1 t, List.take_succ_cons]
        · intro x hx
          rw [List.mem_reverse] at hx
          exact hD x hx
        · rw [List.length_take, Nat.min_eq_left hts.2.1]
          exact hts.1
        · simp only [List.length_append, List.length_reverse, List.length_cons]
          have := hts.2.1
          omega
    · rw [if_neg hsc] at h
      rw [List.reverse_cons, List.append_assoc, List.singleton_append]
      exact ih _ m (fun x hx => hD x (List.mem_cons_of_mem _ hx)) h

lemma matchAtSpec : ∀ (prev : Option Char) (s : List Char) (n : Nat),
    matchAt prev s = some n →
    EmailShape isTldChar (s.take n) ∧ 1 ≤ n ∧ n ≤ s.length := by
  intro prev s n h
  simp only [matchAt] at h
  by_cases hb : boundaryB prev s.head? = true
  swap
  · rw [if_neg hb] at h
    simp at h
  rw [if_pos hb] at h
  by_cases hloc : (s.takeWhile isLocalChar).isEmpty = true
  · rw [if_pos hloc] at h
    simp at h
  rw [if_neg hloc] at h
  by_cases hat : (s.drop (s.takeWhile isLocalChar).length).head? = some '@'
  swap
  · rw [if_neg hat] at h
    simp at h
  rw [if_pos hat] at h
  obtain ⟨d, hR⟩ : ∃ d, s.drop (s.takeWhile isLocalChar).length = '@' :: d := by
    rcases hcase : s.drop (s.takeWhile isLocalChar).length with _ | ⟨a, r⟩
    · rw [hcase] at hat
      simp at hat
    · rw [hcase] at hat
      simp only [List.head?_cons, Option.some.injEq] at hat
      exact ⟨r, by rw [hat]⟩
  rw [hR] at h
  simp only [List.tail_cons] at h
  rcases hd : domSearch ((d.takeWhile isDomainChar).reverse)
      (d.drop (d.takeWhile isDomainChar).length) with _ | m
  · rw [hd] at h
    simp at h
  rw [hd] at h
  simp only [Option.some.injEq] at h
  subst h
  have hDrev : ∀ c ∈ (d.takeWhile isDomainChar).reverse, isDomainChar c = true := by
    intro c hc
    rw [List.mem_reverse] at hc
    exact List.mem_takeWhile_imp hc
  have hspec := domSearchSpec _ _ m hDrev hd
  rw [List.reverse_reverse, twSplit isDomainChar d] at hspec
  obtain ⟨dom, tld, htake, hdomne, hdomC, htldlen, htldC, hmle⟩ := hspec
  set L := s.takeWhile isLocalChar with hLdef
  have hs : s = L ++ '@' :: d := by
    rw [← hR, hLdef]
    exact (twSplit isLocalChar s).symm
  have hslen : s.length = L.length + 1 + d.length := by
    rw [hs]
    simp only [List.length_append, List.length_cons]
    omega
  have hLne : L ≠ [] := by
    intro hnil
    rw [hnil] at hloc
    exact hloc rfl
  refine ⟨⟨L, dom, tld, ?_, hLne, ?_, hdomne, hdomC, htldlen, htldC⟩,
    by omega, by omega⟩
  · rw [hs, show L.length + 1 + m = L.length + (1 + m) by omega,
      takeAppendLen, Nat.add_comm 1 m, List.take_succ_cons, htake]
  · intro c hc
    rw [hLdef] at hc
    exact List.mem_takeWhile_imp hc

lemma scanShape : ∀ (fuel : Nat) (prev : Option Char) (s : List Char) (e : List Char),
    e ∈ scanAux fuel prev s → EmailShape isTldChar e := by
  intro fuel
  induction fuel with
  | zero => intro prev s e h; simp [scanAux] at h
  | succ f ih =>
    intro prev s e h
    cases s with
    | nil => simp [scanAux] at h
    | cons c cs =>
      rw [scanAux] at h
      rcases hm : matchAt prev (c :: cs) with _ | n
      · rw [hm] at h
        exact ih _ _ e h
      · rw [hm] at h
        rcases List.mem_cons.mp h with h | h
        · rw [h]
          exact (matchAtSpec prev (c :: cs) n hm).1
        · exact ih _ _ e h

/-- Every element of the output of find_emails is one of the raw regex
matches, hence decomposes as local at domain dot tld over the classes the
pattern uses (the tld class taken literally from the source, including the
pipe character). -/
lemma findEmailsShape (t : List Char) (e : List Char) (h : e ∈ find_emails t) :
    EmailShape isTldChar e :=
  scanShape t.length none t e (dedupSub (findall t) [] e h)

lemma emailShapeChars (p : Char → Bool) (e : List Char) (h : EmailShape p e) :
    ∀ c ∈ e, isLocalChar c = true ∨ c = '@' ∨ isDomainChar c = true ∨ c = '.' ∨ p c = true := by
  obtain ⟨loc, dom, tld, rfl, _, hloc, _, hdom, _, htld⟩ := h
  intro c hc
  simp only [List.mem_append, List.mem_cons] at hc
  rcases hc with hc | hc | hc | hc | hc
  · exact Or.inl (hloc c hc)
  · exact Or.inr (Or.inl hc)
  · exact Or.inr (Or.inr (Or.inl (hdom c hc)))
  · exact Or.inr (Or.inr (Or.inr (Or.inl hc)))
  · exact Or.inr (Or.inr (Or.inr (Or.inr (htld c hc))))

/-! ## Claim theorems: shape of the output -/

/-- C4 counterexample: the claim that every output entry has a tld of
letters only fails.  On the input a@b.cd|x the whole string is matched
(the tld class of the pattern is [A-Z|a-z], which contains the pipe
character, and the trailing boundary holds after the word character x),
and a string containing a pipe admits no decomposition whose tld is
letters only. -/
theorem c4_counterexample :
    "a@b.cd|x".toList ∈ find_emails "a@b.cd|x".toList ∧
    ¬ EmailShape (fun c => c.isAlpha) "a@b.cd|x".toList := by
  constructor
  · decide
  · intro hsh
    have h := emailShapeChars _ _ hsh '|' (by decide)
    revert h
    decide

/-- C4 amended: every element of the sequence returned by find_emails has
the form local at domain dot tld with local a nonempty run over
[A-Za-z0-9._%+-], domain a nonempty run over [A-Za-z0-9.-], and tld of
length at least two over the class [A-Z|a-z] taken literally from the
pattern, i.e. letters or the pipe character. -/
theorem c4_amended (t : List Char) (e : List Char) (h : e ∈ find_emails t) :
    EmailShape isTldChar e :=
  findEmailsShape t e h

theorem c4_amended_witness :
    ("good@ok.io".toList ∈ find_emails "good@ok.io".toList) ∧
    EmailShape isTldChar "good@ok.io".toList :=
  ⟨by decide, c4_amended "good@ok.io".toList _ (by decide)⟩

/-- C10: every element of the sequence returned by find_emails contains
exactly one at sign. -/
theorem c10_exactly_one_at (t : List Char) (e : List Char) (h : e ∈ find_emails t) :
    List.count '@' e = 1 := by
  obtain ⟨loc, dom, tld, rfl, _, hloc, _, hdom, _, htld⟩ := findEmailsShape t e h
  have h1 : List.count '@' loc = 0 :=
    List.count_eq_zero.mpr (fun hm => absurd (hloc _ hm) (by decide))
  have h2 : List.count '@' dom = 0 :=
    List.count_eq_zero.mpr (fun hm => absurd (hdom _ hm) (by decide))
  have h3 : List.count '@' tld = 0 :=
    List.count_eq_zero.mpr (fun hm => absurd (htld _ hm) (by decide))
  simp [List.count_append, List.count_cons, h1, h2, h3]

theorem c10_witness :
    ("x@y.de".toList ∈ find_emails "x@y.de".toList) ∧
    List.count '@' "x@y.de".toList = 1 :=
  ⟨by decide, c10_exactly_one_at "x@y.de".toList _ (by decide)⟩

/-! ## Claim theorems: concrete scenarios and totality -/

/-- C5: on the input with a candidate whose domain starts with a dot, only
the well-formed second candidate is returned: the domain run cannot be
empty before the literal dot, so bad-email at .com produces no match. -/
theorem c5_dot_domain :
    find_emails "bad-email@.com and good@ok.io".toList = ["good@ok.io".toList] := by
  decide

/-- C6: the second, case-insensitively duplicate occurrence is dropped and
the kept entry retains its original casing; the count is 1. -/
theorem c6_case_duplicate :
    (hunt_emails "Reach John at JOHN.DOE@Example.ORG and john.doe@example.org".toList).emails
      = ["JOHN.DOE@Example.ORG".toList] ∧
    (hunt_emails "Reach John at JOHN.DOE@Example.ORG and john.doe@example.org".toList).count
      = 1 := by
  constructor
  · decide
  · decide

/-- C7: hunt_emails is total (it is a Lean function on all of List Char);
on empty text it returns an empty sequence, count 0 and length 0, and on
any text producing no raw match it returns an empty sequence, count 0 and
the original text length. -/
theorem c7_total :
    hunt_emails [] = ⟨[], 0, 0⟩ ∧
    ∀ t : List Char, findall t = [] → hunt_emails t = ⟨[], 0, t.length⟩ := by
  constructor
  · rfl
  · intro t h
    simp [hunt_emails, find_emails, h, dedupEmails]

theorem c7_witness :
    findall "hello".toList = [] ∧ hunt_emails "hello".toList = ⟨[], 0, 5⟩ := by
  refine ⟨by decide, ?_⟩
  exact c7_total.2 "hello".toList (by decide)

/-! ## Re-matching a well-delimited email in a space-joined context -/

lemma alphaWord (c : Char) (h : c.isAlpha = true) : isWordChar c = true := by
  simp [isWordChar, Char.isAlphanum, h]

lemma alphaTldC (c : Char) (h : c.isAlpha = true) : isTldChar c = true := by
  simp [isTldChar, h]

lemma alphaDom (c : Char) (h : c.isAlpha = true) : isDomainChar c = true := by
  simp [isDomainChar, h]

lemma alphaNotDot (c : Char) (h : c.isAlpha = true) : c ≠ '.' := by
  intro hc
  rw [hc] at h
  exact absurd h (by decide)

lemma boundaryFT (a b : Option Char) (ha : isWordOpt a = false) (hb : isWordOpt b = true) :
    boundaryB a b = true := by
  simp [boundaryB, ha, hb]

lemma boundaryTF (a b : Option Char) (ha : isWordOpt a = true) (hb : isWordOpt b = false) :
    boundaryB a b = true := by
  simp [boundaryB, ha, hb]

lemma tldTakeFull (tld : List Char) (next : Option Char)
    (hlen : 2 ≤ tld.length) (halpha : ∀ c ∈ tld, c.isAlpha = true)
    (hnext : isWordOpt next = false) :
    tldTake tld.reverse next = some tld.length := by
  obtain ⟨c, cs, hrev⟩ : ∃ c cs, tld.reverse = c :: cs := by
    cases hr : tld.reverse with
    | nil =>
      rw [List.reverse_eq_nil_iff] at hr
      subst hr
      simp at hlen
    | cons a l => exact ⟨a, l, rfl⟩
  have hcs : cs.length + 1 = tld.length := by
    have hlr := congrArg List.length hrev
    rw [List.length_reverse] at hlr
    simp only [List.length_cons] at hlr
    omega
  have hcmem : c ∈ tld := by
    rw [← List.mem_reverse, hrev]
    exact List.mem_cons_self _ _
  have hcw : isWordChar c = true := alphaWord c (halpha c hcmem)
  have hbd : boundaryB (some c) next = true := boundaryTF _ _ (by simp [isWordOpt, hcw]) hnext
  have hne : (!cs.isEmpty) = true := by
    cases cs with
    | nil => simp only [List.length_nil] at hcs; omega
    | cons d ds => rfl
  rw [hrev, tldTake, if_pos (by rw [hne, hbd]; rfl), hcs]

lemma matchTldFull (tld tail : List Char)
    (hlen : 2 ≤ tld.length) (halpha : ∀ c ∈ tld, c.isAlpha = true)
    (htail : tail = [] ∨ ∃ r, tail = ' ' :: r) :
    matchTld (tld ++ tail) = some tld.length := by
  have hrun : (tld ++ tail).takeWhile isTldChar = tld := by
    apply twFrontier
    · intro x hx
      exact alphaTldC x (halpha x hx)
    · intro q hq
      rcases htail with rfl | ⟨r, rfl⟩
      · simp at hq
      · simp only [List.head?_cons, Option.some.injEq] at hq
        rw [← hq]
        decide
  have hnext : isWordOpt (tail.head?) = false := by
    rcases htail with rfl | ⟨r, rfl⟩
    · rfl
    · rfl
  simp only [matchTld, hrun, List.drop_left]
  exact tldTakeFull tld tail.head? hlen halpha hnext

lemma domSearchSkip : ∀ (xs pre suf : List Char),
    (∀ x ∈ xs, x ≠ '.') → (∀ q, suf.head? = some q → q ≠ '.') →
    domSearch (xs ++ pre) suf = domSearch pre (xs.reverse ++ suf) := by
  intro xs
  induction xs with
  | nil => intro pre suf _ _; simp
  | cons x xs ih =>
    intro pre suf hxs hsuf
    have hc : ¬ (suf.head? = some '.') := by
      intro hcon
      exact hsuf '.' hcon rfl
    have hxsuf : ∀ q, (x :: suf).head? = some q → q ≠ '.' := by
      intro q hq
      simp only [List.head?_cons, Option.some.injEq] at hq
      rw [← hq]
      exact hxs x (List.mem_cons_self _ _)
    rw [List.cons_append, domSearch, if_neg hc,
      ih pre (x :: suf) (fun y hy => hxs y (List.mem_cons_of_mem _ hy)) hxsuf,
      List.reverse_cons, List.append_assoc, List.singleton_append]

lemma domSearchFull (dom tld tail : List Char)
    (hdom : dom ≠ []) (htldlen : 2 ≤ tld.length)
    (halpha : ∀ c ∈ tld, c.isAlpha = true)
    (htail : tail = [] ∨ ∃ r, tail = ' ' :: r) :
    domSearch (dom ++ '.' :: tld).reverse tail = some (dom.length + 1 + tld.length) := by
  obtain ⟨t0, trest, htld⟩ : ∃ t0 trest, tld = t0 :: trest := by
    cases tld with
    | nil => simp at htldlen
    | cons a l => exact ⟨a, l, rfl⟩
  obtain ⟨c0, cs0, hdrev⟩ : ∃ c0 cs0, dom.reverse = c0 :: cs0 := by
    cases hr : dom.reverse with
    | nil =>
      rw [List.reverse_eq_nil_iff] at hr
      exact absurd hr hdom
    | cons a l => exact ⟨a, l, rfl⟩
  have hrev : (dom ++ '.' :: tld).reverse = tld.reverse ++ ('.' :: dom.reverse) := by
    rw [List.reverse_append, List.reverse_cons, List.append_assoc, List.singleton_append]
  have hskip1 : ∀ x ∈ tld.reverse, x ≠ '.' := by
    intro x hx
    rw [List.mem_reverse] at hx
    exact alphaNotDot x (halpha x hx)
  have hskip2 : ∀ q, tail.head? = some q → q ≠ '.' := by
    intro q hq
    rcases htail with rfl | ⟨r, rfl⟩
    · simp at hq
    · simp only [List.head?_cons, Option.some.injEq] at hq
      rw [← hq]
      decide
  rw [hrev, domSearchSkip tld.reverse ('.' :: dom.reverse) tail hskip1 hskip2,
    List.reverse_reverse]
  have hnd : ¬ ((tld ++ tail).head? = some '.') := by
    rw [htld, List.cons_append, List.head?_cons]
    intro hcon
    simp only [Option.some.injEq] at hcon
    exact alphaNotDot t0 (halpha t0 (by rw [htld]; exact List.mem_cons_self _ _)) hcon
  rw [domSearch, if_neg hnd, hdrev, domSearch, if_pos (by simp)]
  rw [List.tail_cons, matchTldFull tld tail htldlen halpha htail]
  have hlen0 : cs0.length + 1 = dom.length := by
    have hlr := congrArg List.length hdrev
    rw [List.length_reverse] at hlr
    simp only [List.length_cons] at hlr
    omega
  rw [hlen0]

lemma matchAtFull (e tail : List Char) (prev : Option Char)
    (hgood : GoodEmail e) (hprev : isWordOpt prev = false)
    (htail : tail = [] ∨ ∃ r, tail = ' ' :: r) :
    matchAt prev (e ++ tail) = some e.length := by
  obtain ⟨a, loc, dom, tld, hE, haw, hlocC, hdomne, hdomC, htldlen, htalpha⟩ := hgood
  have hE2 : e ++ tail = (a :: loc) ++ '@' :: ((dom ++ '.' :: tld) ++ tail) := by
    rw [hE]
    simp [List.cons_append, List.append_assoc]
  rw [hE2]
  simp only [matchAt]
  have h1 : ((a :: loc) ++ '@' :: ((dom ++ '.' :: tld) ++ tail)).head? = some a := rfl
  rw [h1]
  have hbd : boundaryB prev (some a) = true :=
    boundaryFT _ _ hprev (by simp [isWordOpt, haw])
  rw [if_pos hbd]
  have h2 : ((a :: loc) ++ '@' :: ((dom ++ '.' :: tld) ++ tail)).takeWhile isLocalChar
      = a :: loc := by
    apply twFrontier
    · exact hlocC
    · intro q hq
      simp only [List.head?_cons, Option.some.injEq] at hq
      rw [← hq]
      decide
  rw [h2, if_neg (by simp), List.drop_left, List.head?_cons]
  rw [if_pos rfl, List.tail_cons]
  have h4 : ((dom ++ '.' :: tld) ++ tail).takeWhile isDomainChar = dom ++ '.' :: tld := by
    apply twFrontier
    · intro x hx
      rcases List.mem_append.mp hx with hx | hx
      · exact hdomC x hx
      · rcases List.mem_cons.mp hx with rfl | hx
        · decide
        · exact alphaDom x (htalpha x hx)
    · intro q hq
      rcases htail with rfl | ⟨r, rfl⟩
      · simp at hq
      · simp only [List.head?_cons, Option.some.injEq] at hq
        rw [← hq]
        decide
  rw [h4, List.drop_left, domSearchFull dom tld tail hdomne htldlen htalpha htail]
  have hlen : e.length = (a :: loc).length + 1 + (dom.length + 1 + tld.length) := by
    rw [hE]
    simp only [List.length_cons, List.length_append]
    omega
  rw [hlen]

lemma matchAtSpace (p : Option Char) (x : List Char) : matchAt p (' ' :: x) = none := by
  have hsp : isLocalChar ' ' = false := by decide
  simp only [matchAt, List.takeWhile_cons, hsp]
  simp

lemma scanJoin : ∀ (l : List (List Char)) (fuel : Nat) (prev : Option Char),
    (∀ e ∈ l, GoodEmail e) → (joinSpace l).length ≤ fuel → isWordOpt prev = false →
    scanAux fuel prev (joinSpace l) = l := by
  intro l
  induction l with
  | nil =>
    intro fuel prev _ _ _
    cases fuel <;> simp [joinSpace, scanAux]
  | cons e rest ih =>
    intro fuel prev hgood hfuel hprev
    have hge := hgood e (List.mem_cons_self _ _)
    have hene : e ≠ [] := by
      obtain ⟨a, loc, dom, tld, hE, _⟩ := hge
      rw [hE]
      simp
    obtain ⟨e0, erest, rfl⟩ := List.exists_cons_of_ne_nil hene
    cases rest with
    | nil =>
      rw [show joinSpace [e0 :: erest] = e0 :: erest from rfl] at hfuel ⊢
      cases fuel with
      | zero =>
        exfalso
        simp only [List.length_cons] at hfuel
        omega
      | succ f =>
        rw [scanAux]
        have hm : matchAt prev (e0 :: erest) = some (e0 :: erest).length := by
          have hfull := matchAtFull (e0 :: erest) [] prev hge hprev (Or.inl rfl)
          rwa [List.append_nil] at hfull
        simp only [hm, List.take_length, List.drop_length]
        cases f <;> rfl
    | cons e2 rest2 =>
      rw [show joinSpace ((e0 :: erest) :: e2 :: rest2)
          = (e0 :: erest) ++ ' ' :: joinSpace (e2 :: rest2) from rfl] at hfuel ⊢
      have harith : (e0 :: erest).length + 1 + (joinSpace (e2 :: rest2)).length ≤ fuel := by
        simp only [List.length_append, List.length_cons] at hfuel ⊢
        omega
      cases fuel with
      | zero =>
        exfalso
        simp only [List.length_cons] at harith
        omega
      | succ f =>
        rw [List.cons_append, scanAux]
        have hm : matchAt prev (e0 :: (erest ++ ' ' :: joinSpace (e2 :: rest2)))
            = some (e0 :: erest).length := by
          have hfull := matchAtFull (e0 :: erest) (' ' :: joinSpace (e2 :: rest2)) prev hge
            hprev (Or.inr ⟨_, rfl⟩)
          rwa [List.cons_append] at hfull
        simp only [hm]
        rw [← List.cons_append, List.take_left, List.drop_left]
        congr 1
        cases f with
        | zero =>
          exfalso
          simp only [List.length_cons] at harith
          omega
        | succ f2 =>
          rw [scanAux, matchAtSpace]
          apply ih f2 (some ' ') (fun x hx => hgood x (List.mem_cons_of_mem _ hx)) ?_ (by decide)
          simp only [List.length_cons] at harith
          omega

/-- If every extracted email is well delimited, the scan of the
space-joined output returns exactly the same list of raw matches, so
re-running find_emails reproduces the output unchanged. -/
lemma findEmailsJoin (t : List Char) (h : ∀ e ∈ find_emails t, GoodEmail e) :
    find_emails (joinSpace (find_emails t)) = find_emails t := by
  have h1 : findall (joinSpace (find_emails t)) = find_emails t := by
    rw [findall]
    exact scanJoin (find_emails t) _ none h (Nat.le_refl _) rfl
  show dedupEmails [] (findall (joinSpace (find_emails t))) = find_emails t
  rw [h1]
  exact dedupId (find_emails t) [] (dedupPairwise (findall t) [])
    (fun e _ => List.not_mem_nil _)

/-- C9 counterexample: running the extractor on its own space-joined
output can change the set of distinct lowercased emails.  On the input
a@b.cd.e@f.gh the extractor returns a@b.cd and .e@f.gh (the second match
begins with a dot, matched right after the end of the first one); in the
joined text the dot after a space sits on no word boundary, so the re-run
returns e@f.gh instead. -/
theorem c9_counterexample :
    find_emails "a@b.cd.e@f.gh".toList = ["a@b.cd".toList, ".e@f.gh".toList] ∧
    joinSpace (find_emails "a@b.cd.e@f.gh".toList) = "a@b.cd .e@f.gh".toList ∧
    find_emails "a@b.cd .e@f.gh".toList = ["a@b.cd".toList, "e@f.gh".toList] ∧
    ((find_emails (joinSpace (find_emails "a@b.cd.e@f.gh".toList))).map lowerStr).toFinset
      ≠ ((find_emails "a@b.cd.e@f.gh".toList).map lowerStr).toFinset := by
  refine ⟨by decide, by decide, by decide, by decide⟩

/-- C9 amended: idempotence holds for every input whose extracted emails
are all well delimited, i.e. begin with a word character and carry a
letters-only tld: running the extractor on the space-joined output yields
the same set of distinct lowercased emails (in fact the same list). -/
theorem c9_amended (t : List Char) (h : ∀ e ∈ find_emails t, GoodEmail e) :
    ((find_emails (joinSpace (find_emails t))).map lowerStr).toFinset
      = ((find_emails t).map lowerStr).toFinset := by
  rw [findEmailsJoin t h]

theorem c9_amended_witness :
    (∀ e ∈ find_emails "x@y.com".toList, GoodEmail e) ∧
    ((find_emails (joinSpace (find_emails "x@y.com".toList))).map lowerStr).toFinset
      = ((find_emails "x@y.com".toList).map lowerStr).toFinset := by
  have hyp : ∀ e ∈ find_emails "x@y.com".toList, GoodEmail e := by
    intro e he
    have hfe : find_emails "x@y.com".toList = ["x@y.com".toList] := by decide
    rw [hfe] at he
    rw [List.mem_singleton.mp he]
    exact ⟨'x', [], ['y'], ['c', 'o', 'm'], by decide, by decide, by decide, by decide,
      by decide, by decide, by decide⟩
  exact ⟨hyp, c9_amended _ hyp⟩
